import Mathlib

/-!
Verification of the filtering and tree-construction engine of the
`github-docs` repository (TypeScript sources `src/lib/github/api.ts`,
the file-utility module, and `src/lib/markdown/generator.ts`).

The TypeScript code is shallowly embedded: strings are Lean `String`s
(JavaScript `split`, `join`, `endsWith`, `startsWith`, `trim`,
`substring(1)` are modelled by executable functions over `String.data`),
a thrown JavaScript exception is modelled by `Option.none` (so a
function that may throw returns `Option _`), and the anchored regular
expression built by `new RegExp("^" + p + "$")` is modelled by a small
total matcher over an abstract syntax of the regex fragment that the
wildcard translation can emit (literals, escaped literals, `.`,
character classes without ranges, and the postfix quantifiers `*`, `+`,
`?`).  Constructs outside that fragment (groups, alternation,
assertions, class ranges, alphanumeric escapes) make the model return
`none`, exactly where the ECMAScript `RegExp` constructor would raise a
`SyntaxError` on the inputs considered by the theorems below.
-/

/-! ## Character-list models of the JavaScript string operations -/

/-- Model of JavaScript `s.split(sep)` on character lists: splits at every
occurrence of `sep`, keeping empty pieces, and returns `[[]]` on the empty
string (JavaScript returns `['']`). -/
def splitCharL (sep : Char) : List Char → List (List Char)
  | [] => [[]]
  | c :: cs =>
    if c = sep then [] :: splitCharL sep cs
    else (splitCharL sep cs).modifyHead (c :: ·)

/-- Model of JavaScript `parts.join(sep)` on character lists. -/
def joinCharL (sep : Char) : List (List Char) → List Char
  | [] => []
  | g :: gs =>
    match gs with
    | [] => g
    | _ :: _ => g ++ sep :: joinCharL sep gs

theorem splitCharL_ne_nil (sep : Char) : ∀ l : List Char, splitCharL sep l ≠ []
  | [] => by simp [splitCharL]
  | c :: cs => by
    simp only [splitCharL]
    by_cases h : c = sep
    · simp [h]
    · simp only [h, if_false]
      cases hs : splitCharL sep cs with
      | nil => exact absurd hs (splitCharL_ne_nil sep cs)
      | cons g gs => simp

theorem joinCharL_cons_of_ne_nil (sep : Char) (g : List Char) {gs : List (List Char)}
    (h : gs ≠ []) : joinCharL sep (g :: gs) = g ++ sep :: joinCharL sep gs := by
  cases gs with
  | nil => exact absurd rfl h
  | cons g1 gs1 => rfl

theorem joinCharL_splitCharL (sep : Char) (l : List Char) :
    joinCharL sep (splitCharL sep l) = l := by
  induction l with
  | nil => simp [splitCharL, joinCharL]
  | cons c cs ih =>
    simp only [splitCharL]
    by_cases h : c = sep
    · simp only [h, if_true]
      rw [joinCharL_cons_of_ne_nil sep [] (splitCharL_ne_nil sep cs), ih]
      rfl
    · simp only [h, if_false]
      obtain ⟨g, gs, hgs⟩ := List.exists_cons_of_ne_nil (splitCharL_ne_nil sep cs)
      rw [hgs] at ih ⊢
      cases gs with
      | nil => simpa [joinCharL, List.modifyHead] using congrArg (c :: ·) ih
      | cons g1 gs1 =>
        rw [List.modifyHead, joinCharL_cons_of_ne_nil sep _ (by simp)]
        rw [joinCharL_cons_of_ne_nil sep _ (by simp)] at ih
        simp only [List.cons_append]
        rw [ih]

theorem splitCharL_of_not_mem {sep : Char} {l : List Char} (h : sep ∉ l) :
    splitCharL sep l = [l] := by
  induction l with
  | nil => simp [splitCharL]
  | cons c cs ih =>
    simp only [List.mem_cons, not_or] at h
    simp [splitCharL, (Ne.symm h.1 : ¬ c = sep), ih h.2, List.modifyHead]

theorem two_le_length_splitCharL_of_mem {sep : Char} {l : List Char} (h : sep ∈ l) :
    2 ≤ (splitCharL sep l).length := by
  induction l with
  | nil => simp at h
  | cons c cs ih =>
    simp only [splitCharL]
    by_cases hc : c = sep
    · simp only [hc, if_true, List.length_cons]
      have := splitCharL_ne_nil sep cs
      have : 1 ≤ (splitCharL sep cs).length := List.length_pos.mpr this
      omega
    · have hcs : sep ∈ cs := by
        rcases List.mem_cons.mp h with h1 | h1
        · exact absurd h1.symm hc
        · exact h1
      simp only [hc, if_false, List.length_modifyHead]
      exact ih hcs

theorem mem_of_two_le_length_splitCharL {sep : Char} {l : List Char}
    (h : 2 ≤ (splitCharL sep l).length) : sep ∈ l := by
  by_contra hmem
  rw [splitCharL_of_not_mem hmem] at h
  simp at h

theorem getLastD_eq_of_ne_nil {α : Type} {l : List α} (h : l ≠ []) (d1 d2 : α) :
    l.getLastD d1 = l.getLastD d2 := by
  rw [List.getLastD_eq_getLast?, List.getLastD_eq_getLast?]
  cases hl : l.getLast? with
  | none => exact absurd (List.getLast?_eq_none_iff.mp hl) h
  | some a => rfl

theorem getLastD_splitCharL_append {sep : Char} {l2 : List Char} (h : sep ∉ l2) :
    ∀ l1 : List Char, (splitCharL sep (l1 ++ sep :: l2)).getLastD [] = l2
  | [] => by
    simp [splitCharL, splitCharL_of_not_mem h]
  | c :: l1' => by
    rw [List.cons_append]
    by_cases hc : c = sep
    · rw [show splitCharL sep (c :: (l1' ++ sep :: l2))
          = [] :: splitCharL sep (l1' ++ sep :: l2) by simp [splitCharL, hc]]
      rw [List.getLastD_cons]
      exact getLastD_splitCharL_append h l1'
    · rw [show splitCharL sep (c :: (l1' ++ sep :: l2))
          = (splitCharL sep (l1' ++ sep :: l2)).modifyHead (c :: ·) by
        simp [splitCharL, hc]]
      have hmem : sep ∈ l1' ++ sep :: l2 := by simp
      have hlen := two_le_length_splitCharL_of_mem hmem
      obtain ⟨g, S', hgs⟩ :=
        List.exists_cons_of_ne_nil (splitCharL_ne_nil sep (l1' ++ sep :: l2))
      have hS' : S' ≠ [] := by
        intro hn
        rw [hgs, hn] at hlen
        simp at hlen
      have ih := getLastD_splitCharL_append h l1'
      rw [hgs] at ih ⊢
      simp only [List.modifyHead, List.getLastD_cons] at ih ⊢
      rw [getLastD_eq_of_ne_nil hS' (c :: g) g]
      exact ih

/-- If the last `sep`-separated segment of `l` is `seg` (with `sep` not occurring
in `seg`), then `l` is `seg` itself or ends with `sep :: seg`. -/
theorem eq_or_suffix_of_getLastD_splitCharL {sep : Char} {seg : List Char}
    (hsep : sep ∉ seg) :
    ∀ l : List Char, (splitCharL sep l).getLastD [] = seg →
      l = seg ∨ List.IsSuffix (sep :: seg) l
  | [], h => by
    left
    simpa [splitCharL] using h.symm
  | c :: cs, h => by
    by_cases hc : c = sep
    · subst hc
      simp only [splitCharL, if_true, List.getLastD_cons] at h
      rcases eq_or_suffix_of_getLastD_splitCharL hsep cs h with h1 | h1
      · subst h1
        exact Or.inr (List.suffix_refl _)
      · exact Or.inr (h1.trans (List.suffix_cons c cs))
    · simp only [splitCharL, hc, if_false] at h
      obtain ⟨g, S', hgs⟩ := List.exists_cons_of_ne_nil (splitCharL_ne_nil sep cs)
      rw [hgs] at h
      cases hS' : S' with
      | nil =>
        subst hS'
        simp only [List.modifyHead, List.getLastD_cons, List.getLastD_nil] at h
        -- a singleton split means `cs` has no separator, so `cs = g`
        have hcs : cs = g := by
          have := joinCharL_splitCharL sep cs
          rw [hgs] at this
          simpa [joinCharL] using this.symm
        left
        rw [hcs, h]
      | cons g1 S'' =>
        subst hS'
        simp only [List.modifyHead, List.getLastD_cons] at h
        have hlast : (splitCharL sep cs).getLastD [] = seg := by
          rw [hgs]
          simp only [List.getLastD_cons]
          exact h
        rcases eq_or_suffix_of_getLastD_splitCharL hsep cs hlast with h1 | h1
        · -- impossible: `cs = seg` has no separator but its split has ≥ 2 pieces
          exfalso
          have : splitCharL sep cs = [cs] := splitCharL_of_not_mem (h1 ▸ hsep)
          rw [hgs] at this
          simp at this
        · exact Or.inr (h1.trans (List.suffix_cons c cs))

/-! ## String wrappers (JavaScript semantics) -/

/-- JavaScript `path.split('/').pop() || ''` — the final path segment
("basename").  `split` always returns a nonempty array, so `pop` yields the
last piece; on `''` that piece is `''`. -/
def lastSegment (s : String) : String :=
  String.mk ((splitCharL '/' s.data).getLastD [])

/-- JavaScript `parts = path.split('/'); parts.pop(); parts.join('/')` — the
path with its final segment removed (the parent path, `''` for top level). -/
def parentOf (s : String) : String :=
  String.mk (joinCharL '/' ((splitCharL '/' s.data).dropLast))

/-- Depth of an entry as computed by the tree builder:
`item.path.split('/').length`. -/
def jsDepth (s : String) : Nat :=
  (splitCharL '/' s.data).length

/-- JavaScript `s.startsWith(pre)`. -/
def jsStartsWith (s pre : String) : Bool :=
  pre.data.isPrefixOf s.data

/-- JavaScript `s.endsWith(suf)`. -/
def jsEndsWith (s suf : String) : Bool :=
  suf.data.isSuffixOf s.data

/-- JavaScript `s.trim()` (whitespace here is the ASCII whitespace of
`Char.isWhitespace`; the full Unicode white-space set of JavaScript is not
needed by any rule considered below). -/
def jsTrim (s : String) : String :=
  String.mk (((s.data.dropWhile Char.isWhitespace).reverse.dropWhile
    Char.isWhitespace).reverse)

/-- JavaScript `s.substring(1)`. -/
def jsDrop1 (s : String) : String :=
  String.mk (s.data.drop 1)

/-! ## Model of the anchored regular expression produced by `matchPattern`

`matchPattern` builds `new RegExp('^' + regexPattern + '$')` and calls
`.test`.  The abstract syntax below covers the fragment of ECMAScript
regexes the wildcard translation can produce: a sequence of atoms
(literal, `.`, or a character class without ranges), each with an optional
postfix quantifier `*`, `+` or `?`.  Anything else (groups `(`/`)`,
alternation `|`, repetition braces, assertions `^`/`$` in the body,
alphanumeric escapes, class ranges, a dangling escape, a quantifier with
nothing to repeat, an unterminated class) makes compilation return `none`,
which models a thrown `SyntaxError` for the inputs appearing in the
theorems below (for instance the translation of the pattern `"["` yields
the source `^[$`, whose character class is unterminated, so the `RegExp`
constructor throws). -/

/-- Regex atom: a literal character, the wildcard dot, or a character class. -/
inductive RAtom where
  | lit (c : Char)
  | dot
  | cls (neg : Bool) (members : List Char)
deriving DecidableEq, Repr

/-- Postfix quantifier attached to an atom (`once` = no quantifier). -/
inductive Quant where
  | once
  | star
  | plus
  | opt
deriving DecidableEq, Repr

/-- One quantified atom of the compiled regex. -/
structure RItem where
  quant : Quant
  atom : RAtom
deriving DecidableEq, Repr

/-- Whether an atom matches one character.  The ECMAScript `.` (without the
`s` flag) matches every character except line terminators. -/
def atomMatch : RAtom → Char → Bool
  | .lit c, x => x == c
  | .dot, x => !(x == '\n' || x == '\r' || x.val == 0x2028 || x.val == 0x2029)
  | .cls neg ms, x => (ms.contains x) != neg

/-- Whether a sequence of quantified atoms can match the empty string. -/
def nullable : List RItem → Bool
  | [] => true
  | i :: rs =>
    match i.quant with
    | .once => false
    | .plus => false
    | .star => nullable rs
    | .opt => nullable rs

/-- Brzozowski derivative of a sequence by one character: the list of
sequences that must match the rest of the input. -/
def derivSeq (x : Char) : List RItem → List (List RItem)
  | [] => []
  | ⟨.once, a⟩ :: rs => if atomMatch a x then [rs] else []
  | ⟨.plus, a⟩ :: rs => if atomMatch a x then [⟨.star, a⟩ :: rs] else []
  | ⟨.star, a⟩ :: rs =>
    (if atomMatch a x then [⟨.star, a⟩ :: rs] else []) ++ derivSeq x rs
  | ⟨.opt, a⟩ :: rs => (if atomMatch a x then [rs] else []) ++ derivSeq x rs

/-- Full-string matching of a set of alternative sequences (the regex is
anchored at both ends, so `.test` is exactly full-string matching). -/
def rmatchAlts : List Char → List (List RItem) → Bool
  | [], alts => alts.any nullable
  | x :: xs, alts => rmatchAlts xs (alts.flatMap (derivSeq x))

/-- Anchored matching of a compiled regex against a character list. -/
def rmatch (rs : List RItem) (s : List Char) : Bool :=
  rmatchAlts s [rs]

/-- Parser state for compiling the regex body left to right.  `pending` holds
the last parsed atom, which may still receive a postfix quantifier. -/
inductive PState where
  | normal (pending : Option RAtom)
  | esc
  | clsStart
  | clsBody (neg : Bool) (acc : List Char)
  | clsEsc (neg : Bool) (acc : List Char)
deriving DecidableEq, Repr

/-- Emit a pending atom (unquantified) onto the reversed output. -/
def flushPending : Option RAtom → List RItem → List RItem
  | none, out => out
  | some a, out => ⟨.once, a⟩ :: out

/-- One step of the regex-body parser.  `none` models a `SyntaxError` of the
`RegExp` constructor; characters outside the modelled fragment (groups,
alternation, braces, in-body anchors, alphanumeric escapes, class ranges)
also yield `none`, see the section comment. -/
def pstep : PState × List RItem → Char → Option (PState × List RItem)
  | (.normal pending, out), c =>
    if c = '\\' then some (.esc, flushPending pending out)
    else if c = '.' then some (.normal (some .dot), flushPending pending out)
    else if c = '[' then some (.clsStart, flushPending pending out)
    else if c = '*' then
      match pending with
      | some a => some (.normal none, ⟨.star, a⟩ :: out)
      | none => none
    else if c = '+' then
      match pending with
      | some a => some (.normal none, ⟨.plus, a⟩ :: out)
      | none => none
    else if c = '?' then
      match pending with
      | some a => some (.normal none, ⟨.opt, a⟩ :: out)
      | none => none
    else if c = '(' ∨ c = ')' ∨ c = '{' ∨ c = '}' ∨ c = '|' ∨ c = '^' ∨ c = '$'
      then none
    else some (.normal (some (.lit c)), flushPending pending out)
  | (.esc, out), c =>
    if c.isAlphanum then none else some (.normal (some (.lit c)), out)
  | (.clsStart, out), c =>
    if c = '^' then some (.clsBody true [], out)
    else if c = ']' then some (.normal (some (.cls false [])), out)
    else if c = '\\' then some (.clsEsc false [], out)
    else if c = '-' then none
    else some (.clsBody false [c], out)
  | (.clsBody neg acc, out), c =>
    if c = ']' then some (.normal (some (.cls neg acc.reverse)), out)
    else if c = '\\' then some (.clsEsc neg acc, out)
    else if c = '-' then none
    else some (.clsBody neg (c :: acc), out)
  | (.clsEsc neg acc, out), c =>
    if c.isAlphanum then none else some (.clsBody neg (c :: acc), out)

/-- Compile the body of the anchored regex `^body$`.  `none` models a thrown
`SyntaxError`; at the end of input a dangling escape or an unterminated
character class is an error. -/
def compileRegexL (body : List Char) : Option (List RItem) := do
  let (st, out) ← body.foldlM pstep (PState.normal none, [])
  match st with
  | .normal pending => some (flushPending pending out).reverse
  | _ => none

/-- Per-character form of the wildcard translation
`pattern.replace(/\./g, '\\.').replace(/\*/g, '.*').replace(/\?/g, '.')`.
The three sequential global replaces are equivalent to this single
per-character map: the characters introduced by an earlier replace are
never rewritten by a later one (`\.` contains no `*` or `?`, and `.*`
contains no `?`). -/
def translateChar (c : Char) : List Char :=
  if c = '.' then ['\\', '.']
  else if c = '*' then ['.', '*']
  else if c = '?' then ['.']
  else [c]

/-- The wildcard-to-regex translation of `matchPattern`. -/
def wildcardTranslate (p : String) : String :=
  String.mk (p.data.flatMap translateChar)

/-- Model of `matchPattern(pattern, filePath)` from `api.ts`:
empty patterns match nothing; otherwise exact equality with the full path,
then with the basename, then the anchored wildcard regex is tested against
both the full path and the basename.  `none` models the `SyntaxError` thrown
by `new RegExp` on patterns outside the translatable fragment. -/
def matchPattern (pattern filePath : String) : Option Bool :=
  if pattern = "" then some false
  else if pattern = filePath then some true
  else
    let fileName := lastSegment filePath
    if pattern = fileName then some true
    else
      match compileRegexL (wildcardTranslate pattern).data with
      | none => none
      | some r => some (rmatch r filePath.data || rmatch r fileName.data)

example : matchPattern "*.log" "keep.log" = some true := by decide
example : matchPattern "*.log" "keep.logx" = some false := by decide
example : matchPattern "[" "x" = none := by decide
example : matchPattern "[" "[" = some true := by decide
example : matchPattern "LICENSE" "docs/LICENSE" = some true := by decide
example : matchPattern "LICENSE" "LICENSE2" = some false := by decide
example : matchPattern "a?c" "abc" = some true := by decide
example : matchPattern "" "x" = some false := by decide

/-! ## Model of `shouldIgnore` from the file-utility module -/

/-- The hard-coded lock-file check at the top of `shouldIgnore`:
`filePath === 'package-lock.json' || filePath.endsWith('/package-lock.json')`. -/
def isLockPath (filePath : String) : Bool :=
  filePath == "package-lock.json" || jsEndsWith filePath "/package-lock.json"

/-- The callback passed to `ignorePatterns.some` inside `shouldIgnore`:
comment lines and blank lines contribute `false`; a rule starting with `!`
contributes the negation of matching its remainder; any other rule
contributes its own match result.  A thrown `SyntaxError` from
`matchPattern` propagates (`none`). -/
def rulePredicate (filePath pattern : String) : Option Bool :=
  if jsStartsWith pattern "#" || jsTrim pattern == "" then some false
  else if jsStartsWith pattern "!" then
    (matchPattern (jsDrop1 pattern) filePath).map (fun b => !b)
  else matchPattern pattern filePath

/-- JavaScript `Array.prototype.some` with a possibly-throwing predicate:
evaluates left to right, short-circuits on the first `true`, and propagates
a thrown exception (`none`). -/
def jsSome : List String → (String → Option Bool) → Option Bool
  | [], _ => some false
  | x :: xs, p =>
    match p x with
    | none => none
    | some true => some true
    | some false => jsSome xs p

/-- Model of `shouldIgnore(filePath, ignorePatterns)` from the file-utility
module: the lock-file override is decided first, an empty rule list ignores
nothing, and otherwise the rules are scanned with `some`. -/
def shouldIgnore (filePath : String) (ignorePatterns : List String) : Option Bool :=
  if isLockPath filePath then some true
  else if ignorePatterns.isEmpty then some false
  else jsSome ignorePatterns (rulePredicate filePath)

example : shouldIgnore "keep.log" ["*.log", "!keep.log"] = some true := by decide
example : shouldIgnore "other.log" ["*.log", "!keep.log"] = some true := by decide
example : shouldIgnore "other.txt" ["!keep.log"] = some true := by decide
example : shouldIgnore "keep.log" ["!keep.log"] = some false := by decide
example : shouldIgnore "package-lock.json" ["!package-lock.json"] = some true := by decide
example : shouldIgnore "a/package-lock.json" [] = some true := by decide
example : shouldIgnore "x.txt" [] = some false := by decide
example : shouldIgnore "docs/LICENSE" ["LICENSE"] = some true := by decide
example : shouldIgnore "LICENSE2" ["LICENSE"] = some false := by decide
example : shouldIgnore "x.txt" ["#x.txt", "   "] = some false := by decide
example : shouldIgnore "x" ["["] = none := by decide

/-! ## Model of `buildFileTree` from the file-utility module -/

/-- A flat tree entry as returned by the provider's tree API.  Only `path`
and `type` (`"tree"` for a directory, `"blob"` for a file) are consulted by
`buildFileTree`; the remaining metadata fields (`mode`, `sha`, `size`,
`url`) are never read and are omitted from the model. -/
structure TreeItem where
  path : String
  type : String
deriving DecidableEq, Repr

/-- A node of the nested file tree (`FileTree` in the source): file nodes
have no children, directory nodes carry an ordered children array. -/
inductive FileTree where
  | file (path : String)
  | dir (path : String) (children : List FileTree)
deriving Repr

/-- The `path` field of a node. -/
def nodePath : FileTree → String
  | .file p => p
  | .dir p _ => p

/-- Whether a node is a directory node (`type === 'dir'`). -/
def isDirNode : FileTree → Bool
  | .file _ => false
  | .dir _ _ => true

/-- Whether a node is a file node (`type === 'file'`). -/
def isFileNode : FileTree → Bool
  | .file _ => true
  | .dir _ _ => false

/-- The depth guard of `buildFileTree`: an entry is kept unless
`maxDepth !== -1 && depth > maxDepth`, where depth is the number of
`/`-separated segments of the full path. -/
def keepDepth (maxDepth : Int) (p : String) : Bool :=
  (maxDepth == -1) || decide ((jsDepth p : Int) ≤ maxDepth)

/-- Assignment `map[path] = node` on a JavaScript object whose keys are the
directory paths: an existing key keeps its insertion position (and the
stored node is determined by the key alone), a new key is appended.
Integer-like keys, which JavaScript would reorder first, do not occur in
the inputs considered here. -/
def insertKey (l : List String) (p : String) : List String :=
  if p ∈ l then l else l ++ [p]

/-- First pass of `buildFileTree`: the insertion-ordered keys of `map` after
creating a directory node for every (already ignore-filtered) `tree` entry
that passes the depth guard. -/
def dirKeysOf (dirs : List TreeItem) (maxDepth : Int) : List String :=
  dirs.foldl (fun acc it => if keepDepth maxDepth it.path then insertKey acc it.path else acc) []

/-- The directory children of the directory node at `p`, in the wiring pass
order (`Object.values(map)` = key insertion order): exactly the created
directories whose computed parent path is `p`.  A directory whose parent
path is empty is pushed to the forest roots instead, so the node at `""`
(if any) never receives children. -/
def dirChildrenKeys (dk : List String) (p : String) : List String :=
  if p = "" then [] else dk.filter (fun q => parentOf q == p)

/-- The file children of the directory node at `p`: the (already
ignore-filtered) `blob` entries that pass the depth guard and whose computed
parent path is `p`, in input order.  Files with an empty parent path are
pushed to the forest roots instead. -/
def childFiles (files : List TreeItem) (maxDepth : Int) (p : String) : List String :=
  if p = "" then []
  else (files.filter (fun it => keepDepth maxDepth it.path && parentOf it.path == p)).map (·.path)

/-- The files pushed directly onto the forest roots: filtered `blob` entries
passing the depth guard whose computed parent path is empty. -/
def rootFilesOf (files : List TreeItem) (maxDepth : Int) : List String :=
  (files.filter (fun it => keepDepth maxDepth it.path && parentOf it.path == "")).map (·.path)

/-- Materialisation of the directory node at `q` with all children attached
(directory children first — wired in the second pass — then file children
from the third pass).  The fuel argument only bounds the recursion depth;
`assembleForest` passes `maxKeyLen dk + 1`, which is sufficient because
every child key is strictly longer than its parent key, so a chain of
nested directories reachable from any root is shorter than the longest key. -/
def buildNodeF (dk : List String) (files : List TreeItem) (maxDepth : Int) :
    Nat → String → FileTree
  | 0, q => .dir q []
  | n + 1, q =>
    .dir q ((dirChildrenKeys dk q).map (buildNodeF dk files maxDepth n)
      ++ (childFiles files maxDepth q).map FileTree.file)

/-- Length of the longest directory key (0 for no keys). -/
def maxKeyLen (dk : List String) : Nat :=
  dk.foldl (fun a k => max a k.length) 0

/-- The forest returned by `buildFileTree` once both filtered entry lists
are known: root directories (created directories with empty parent path, in
insertion order, fully materialised) followed by root files. -/
def assembleForest (dk : List String) (files : List TreeItem) (maxDepth : Int) :
    List FileTree :=
  (dk.filter (fun q => parentOf q == "")).map
      (buildNodeF dk files maxDepth (maxKeyLen dk + 1))
    ++ (rootFilesOf files maxDepth).map FileTree.file

/-- JavaScript `Array.prototype.filter` with a possibly-throwing predicate:
the callback runs left to right and a thrown exception (`none`) aborts the
whole call. -/
def jsFilterM {α : Type} (p : α → Option Bool) : List α → Option (List α)
  | [] => some []
  | x :: xs =>
    match p x with
    | none => none
    | some true => (jsFilterM p xs).map (x :: ·)
    | some false => jsFilterM p xs

/-- The ignore-filtered directory entries:
`items.filter(i => i.type === 'tree').filter(i => !shouldIgnore(i.path, rules))`. -/
def dirsFiltered (items : List TreeItem) (rules : List String) : Option (List TreeItem) :=
  jsFilterM (fun it => (shouldIgnore it.path rules).map (fun b => !b))
    (items.filter (fun it => it.type == "tree"))

/-- The ignore-filtered file entries:
`items.filter(i => i.type === 'blob').filter(i => !shouldIgnore(i.path, rules))`. -/
def blobsFiltered (items : List TreeItem) (rules : List String) : Option (List TreeItem) :=
  jsFilterM (fun it => (shouldIgnore it.path rules).map (fun b => !b))
    (items.filter (fun it => it.type == "blob"))

/-- The directory index (`map`) of `buildFileTree`, as its ordered key list. -/
def dirIndex (items : List TreeItem) (rules : List String) (maxDepth : Int) :
    Option (List String) :=
  (dirsFiltered items rules).map (fun dirs => dirKeysOf dirs maxDepth)

/-- Model of `buildFileTree(items, ignorePatterns, maxDepth)`:  filter and
index the directory entries, filter the file entries (either filter may
propagate a thrown pattern error), then assemble the forest. -/
def buildFileTree (items : List TreeItem) (rules : List String) (maxDepth : Int) :
    Option (List FileTree) := do
  let dk ← dirIndex items rules maxDepth
  let files ← blobsFiltered items rules
  pure (assembleForest dk files maxDepth)

mutual

/-- Pre-order flattening of one node: the node itself, then its flattened
children (the body of the `reduce` callback in `flattenTree`). -/
def flattenNode : FileTree → List FileTree
  | .file p => [.file p]
  | .dir p cs => .dir p cs :: flattenTree cs

/-- Model of the recursive `flattenTree` helper of
`generateRepositoryMarkdown`: pre-order flattening (each node before its
children, children in array order). -/
def flattenTree : List FileTree → List FileTree
  | [] => []
  | n :: rest => flattenNode n ++ flattenTree rest

end

/-- All node paths of a forest, in pre-order. -/
def pathsOf (forest : List FileTree) : List String :=
  (flattenTree forest).map nodePath

example :
    buildFileTree [⟨"r", "tree"⟩, ⟨"r/a.txt", "blob"⟩, ⟨"r/d", "tree"⟩] [] (-1)
      = some [.dir "r" [.dir "r/d" [], .file "r/a.txt"]] := by rfl

example : buildFileTree [⟨"a/b.txt", "blob"⟩] [] (-1) = some [] := by rfl

example :
    buildFileTree [⟨"a", "tree"⟩, ⟨"a/b", "tree"⟩, ⟨"a/b/c.txt", "blob"⟩] [] 1
      = some [.dir "a" []] := by rfl

example :
    buildFileTree [⟨"a", "tree"⟩, ⟨"a/b.txt", "blob"⟩] [] (-1)
      = some [.dir "a" [.file "a/b.txt"]] := by rfl

example :
    pathsOf [.dir "a" [.file "a/b.txt"]] = ["a", "a/b.txt"] := by rfl

/-! ## Model of `getFileType` and the markdown generator -/

/-- The programming-language extension table of `getFileType`. -/
def codeExtensions : List (String × String) :=
  [("js", "javascript"), ("jsx", "javascript"), ("ts", "typescript"),
   ("tsx", "typescript"), ("py", "python"), ("rb", "ruby"), ("java", "java"),
   ("c", "c"), ("cpp", "cpp"), ("cs", "csharp"), ("go", "go"), ("rs", "rust"),
   ("php", "php"), ("swift", "swift"), ("kt", "kotlin"), ("scala", "scala"),
   ("dart", "dart"), ("sh", "bash"), ("bat", "batch"), ("ps1", "powershell"),
   ("sql", "sql"), ("r", "r"), ("m", "matlab"), ("pl", "perl"), ("lua", "lua"),
   ("ex", "elixir"), ("exs", "elixir"), ("erl", "erlang"), ("clj", "clojure"),
   ("hs", "haskell"), ("fs", "fsharp"), ("ml", "ocaml"), ("groovy", "groovy"),
   ("jl", "julia")]

/-- The markup and stylesheet extension table of `getFileType`. -/
def markupExtensions : List (String × String) :=
  [("html", "html"), ("htm", "html"), ("xml", "xml"), ("css", "css"),
   ("scss", "scss"), ("sass", "sass"), ("less", "less"), ("svg", "svg"),
   ("md", "markdown"), ("markdown", "markdown"), ("json", "json"),
   ("yaml", "yaml"), ("yml", "yaml"), ("toml", "toml")]

/-- The document extension table of `getFileType`. -/
def docExtensions : List (String × String) :=
  [("txt", "text"), ("pdf", "pdf"), ("doc", "word"), ("docx", "word"),
   ("xls", "excel"), ("xlsx", "excel"), ("ppt", "powerpoint"),
   ("pptx", "powerpoint"), ("odt", "openoffice"), ("ods", "openoffice"),
   ("odp", "openoffice")]

/-- The image extension table of `getFileType`. -/
def imageExtensions : List (String × String) :=
  [("jpg", "image"), ("jpeg", "image"), ("png", "image"), ("gif", "image"),
   ("bmp", "image"), ("tiff", "image"), ("webp", "image"), ("ico", "image")]

/-- The archive/binary extension table of `getFileType`. -/
def otherExtensions : List (String × String) :=
  [("zip", "archive"), ("rar", "archive"), ("tar", "archive"),
   ("gz", "archive"), ("7z", "archive"), ("exe", "executable"),
   ("dll", "binary"), ("so", "binary"), ("a", "binary"), ("o", "binary"),
   ("class", "binary"), ("jar", "binary"), ("war", "binary"), ("ear", "binary")]

/-- The configuration-file extension table of `getFileType`. -/
def configExtensions : List (String × String) :=
  [("ini", "config"), ("conf", "config"), ("cfg", "config"),
   ("config", "config"), ("env", "config")]

/-- Model of `getFileType(filePath)`: special file names are checked first,
then the extension (`filePath.split('.').pop()?.toLowerCase() || ''`) is
looked up in the tables in order (all table values are non-empty, so the
JavaScript `||` chain is first-hit lookup), falling back to `"unknown"`. -/
def getFileType (filePath : String) : String :=
  let extension := String.mk (((splitCharL '.' filePath.data).getLastD []).map Char.toLower)
  if jsEndsWith filePath "package.json" then "package-json"
  else if jsEndsWith filePath "tsconfig.json" then "tsconfig"
  else if jsEndsWith filePath ".gitignore" then "gitignore"
  else if jsEndsWith filePath ".GithubDocsignore" then "githubdocsignore"
  else if jsEndsWith filePath "Dockerfile" then "dockerfile"
  else if jsEndsWith filePath "docker-compose.yml"
      || jsEndsWith filePath "docker-compose.yaml" then "docker-compose"
  else if jsEndsWith filePath "Makefile" then "makefile"
  else if jsEndsWith filePath "README.md" then "readme"
  else if jsEndsWith filePath "LICENSE" then "license"
  else
    match codeExtensions.lookup extension with
    | some v => v
    | none =>
      match markupExtensions.lookup extension with
      | some v => v
      | none =>
        match docExtensions.lookup extension with
        | some v => v
        | none =>
          match imageExtensions.lookup extension with
          | some v => v
          | none =>
            match otherExtensions.lookup extension with
            | some v => v
            | none =>
              match configExtensions.lookup extension with
              | some v => v
              | none => "unknown"

/-- The `switch (fileType)` in `generateFileContentMarkdown` choosing the
fenced-code-block language tag. -/
def languageForFileType (fileType : String) : String :=
  if fileType == "javascript" then "javascript"
  else if fileType == "typescript" then "typescript"
  else if fileType == "python" then "python"
  else if fileType == "html" then "html"
  else if fileType == "css" then "css"
  else if fileType == "json" then "json"
  else if fileType == "markdown" then "markdown"
  else if fileType == "yaml" then "yaml"
  else ""

/-- Model of `lines.filter(line => !shouldIgnore(line, sourceIgnorePatterns))`:
the callback runs left to right and a thrown pattern error propagates. -/
def filterLines (sourceIgnorePatterns : List String) : List String → Option (List String)
  | [] => some []
  | l :: ls =>
    match shouldIgnore l sourceIgnorePatterns with
    | none => none
    | some true => filterLines sourceIgnorePatterns ls
    | some false => (filterLines sourceIgnorePatterns ls).map (l :: ·)

/-- Model of the line-filtering step of `generateFileContentMarkdown`
(lines 153–159): content is filtered only when the line-rule list is
non-empty, otherwise it is passed through unchanged. -/
def filterContentLines (sourceIgnorePatterns : List String) (lines : List String) :
    Option (List String) :=
  if sourceIgnorePatterns.length > 0 then filterLines sourceIgnorePatterns lines
  else some lines

/-- Splits file content into lines (`content.split('\n')`). -/
def splitLines (content : String) : List String :=
  (splitCharL '\n' content.data).map String.mk

/-- Rejoins filtered lines (`filteredLines.join('\n')`). -/
def joinLines (lines : List String) : String :=
  String.mk (joinCharL '\n' (lines.map String.data))

/-- The fixed failure placeholder section emitted by the `catch` branch of
`generateFileContentMarkdown`. -/
def failureSection (filePath : String) : String :=
  "### " ++ filePath ++ "\n\n> ファイル内容の取得に失敗しました。\n\n"

/-- Model of `generateFileContentMarkdown`.  The whole body runs inside
`try`; a thrown pattern error from either `shouldIgnore` call, or a failed
content fetch, lands in the `catch` branch, which returns the fixed
placeholder section — so the function is total and never propagates an
error.  An ignored file yields the empty string. -/
def generateFileContentMarkdown (fetch : String → Except Unit String)
    (filePath : String) (ignorePatterns sourceIgnorePatterns : List String) : String :=
  let attempt : Option String :=
    match shouldIgnore filePath ignorePatterns with
    | none => none
    | some true => some ""
    | some false =>
      let fileType := getFileType filePath
      match fetch filePath with
      | .error _ => none
      | .ok content =>
        match filterContentLines sourceIgnorePatterns (splitLines content) with
        | none => none
        | some filteredLines =>
          let filteredContent :=
            if sourceIgnorePatterns.length > 0 then joinLines filteredLines else content
          some ("### " ++ filePath ++ "\n\n```" ++ languageForFileType fileType
            ++ "\n" ++ filteredContent ++ "\n```\n\n")
  match attempt with
  | some md => md
  | none => failureSection filePath

/-- Model of the `## ファイル内容` part of `generateRepositoryMarkdown`
(lines 238–274): the forest is flattened in pre-order, only file nodes are
processed, each is skipped when `shouldIgnore` holds (a thrown pattern
error in this check is outside any `try` and propagates), and the sections
produced by `generateFileContentMarkdown` are concatenated.  The
`try`/`catch` around the call is dead code because
`generateFileContentMarkdown` never throws.  `sectionsLoop` is the loop
body over the flattened file nodes. -/
def sectionsLoop (fetch : String → Except Unit String)
    (ignorePatterns sourceIgnorePatterns : List String) : List FileTree → Option String
  | [] => some ""
  | .dir _ _ :: rest => sectionsLoop fetch ignorePatterns sourceIgnorePatterns rest
  | .file p :: rest =>
    match shouldIgnore p ignorePatterns with
    | none => none
    | some true => sectionsLoop fetch ignorePatterns sourceIgnorePatterns rest
    | some false =>
      (sectionsLoop fetch ignorePatterns sourceIgnorePatterns rest).map (fun tail =>
        generateFileContentMarkdown fetch p ignorePatterns sourceIgnorePatterns ++ tail)

/-- The heading plus the concatenated per-file sections. -/
def generateFileSections (forest : List FileTree) (fetch : String → Except Unit String)
    (ignorePatterns sourceIgnorePatterns : List String) : Option String :=
  (sectionsLoop fetch ignorePatterns sourceIgnorePatterns
      ((flattenTree forest).filter isFileNode)).map
    (fun body => "## ファイル内容\n\n" ++ body)

example : getFileType "a.ts" = "typescript" := by rfl
example : getFileType "c.py" = "python" := by rfl
example : getFileType "b.md" = "markdown" := by rfl
example :
    generateFileSections [.file "a.ts", .file "b.md", .file "c.py"]
      (fun p => if p == "b.md" then .error () else .ok "code") [] []
      = some ("## ファイル内容\n\n### a.ts\n\n```typescript\ncode\n```\n\n"
          ++ "### b.md\n\n> ファイル内容の取得に失敗しました。\n\n"
          ++ "### c.py\n\n```python\ncode\n```\n\n") := by rfl

/-! ## Claim C1 — aggregate ignore decision -/

/-- Claim C1, as stated, is false: with rules `["*.log", "!keep.log"]` the
code ignores `keep.log` (the first rule matches and `some` short-circuits;
the later negated rule cannot reset the verdict), while the claim demands
`isIgnored("keep.log", rules) = false`. -/
theorem C1_counterexample :
    shouldIgnore "keep.log" ["*.log", "!keep.log"] = some true := by decide

/-- Claim C1 (amended): the aggregate decision is an existential scan of the
rule list, not an ordered overriding fold.  A candidate is ignored iff the
hard-coded lock-file check applies or some rule fires, where a plain rule
fires when it matches and a negated rule `!p` fires when `p` does NOT match
the candidate; once a rule fires, later rules never reset the verdict.  In
particular both `keep.log` and `other.log` are ignored under
`["*.log", "!keep.log"]`, and a lone negated rule ignores every candidate
its pattern does not match. -/
theorem C1_ignore_scan_semantics :
    shouldIgnore "keep.log" ["*.log", "!keep.log"] = some true ∧
    shouldIgnore "other.log" ["*.log", "!keep.log"] = some true ∧
    shouldIgnore "other.txt" ["!keep.log"] = some true ∧
    (∀ (filePath r : String) (rest : List String),
      rulePredicate filePath r = some true →
      shouldIgnore filePath (r :: rest) = some true) := by
  refine ⟨by decide, by decide, by decide, ?_⟩
  intro f r rest h
  by_cases hl : isLockPath f
  · simp [shouldIgnore, hl]
  · simp [shouldIgnore, hl, jsSome, h]

/-- Witness for `C1_ignore_scan_semantics` at a concrete rule and candidate. -/
theorem C1_witness :
    rulePredicate "other.log" "*.log" = some true ∧
    shouldIgnore "other.log" ["*.log", "!other.log"] = some true :=
  ⟨by decide, C1_ignore_scan_semantics.2.2.2 "other.log" "*.log" ["!other.log"] (by decide)⟩

/-! ## Claim C4 — hard-coded lock-file override -/

/-- The hard-coded check of `shouldIgnore` fires exactly on the paths whose
final `/`-separated segment is `package-lock.json`. -/
theorem isLockPath_iff (f : String) :
    isLockPath f = true ↔ lastSegment f = "package-lock.json" := by
  constructor
  · intro h
    rw [isLockPath] at h
    simp only [Bool.or_eq_true, beq_iff_eq] at h
    rcases h with h1 | h1
    · subst h1
      rfl
    · have hsuf : List.IsSuffix "/package-lock.json".data f.data :=
        List.isSuffixOf_iff_suffix.mp h1
      obtain ⟨pre, hpre⟩ := hsuf
      show String.mk ((splitCharL '/' f.data).getLastD []) = "package-lock.json"
      rw [← hpre]
      rw [show ("/package-lock.json".data : List Char)
          = '/' :: "package-lock.json".data from rfl]
      rw [getLastD_splitCharL_append (by decide) pre]
  · intro h
    have hd : (splitCharL '/' f.data).getLastD [] = "package-lock.json".data := by
      have := congrArg String.data h
      simpa [lastSegment] using this
    rcases eq_or_suffix_of_getLastD_splitCharL (by decide) f.data hd with h1 | h1
    · have : f = "package-lock.json" := String.ext h1
      simp [isLockPath, this]
    · have : jsEndsWith f "/package-lock.json" = true := by
        unfold jsEndsWith
        exact List.isSuffixOf_iff_suffix.mpr h1
      simp [isLockPath, this]

/-- Claim C4: any candidate whose basename is exactly `package-lock.json` is
ignored for every rule list (the override is decided before the rule list
is consulted, so it holds even under `"!package-lock.json"` and even for
rule lists whose evaluation would throw); with an empty rule list no other
candidate is ignored. -/
theorem C4_lock_override :
    (∀ rules, shouldIgnore "package-lock.json" rules = some true) ∧
    (∀ rules, shouldIgnore "a/package-lock.json" rules = some true) ∧
    (∀ filePath rules, lastSegment filePath = "package-lock.json" →
      shouldIgnore filePath rules = some true) ∧
    (∀ filePath, lastSegment filePath ≠ "package-lock.json" →
      shouldIgnore filePath [] = some false) := by
  have hmain : ∀ filePath rules, lastSegment filePath = "package-lock.json" →
      shouldIgnore filePath rules = some true := by
    intro f R h
    have := (isLockPath_iff f).mpr h
    simp [shouldIgnore, this]
  refine ⟨fun R => hmain _ R (by decide), fun R => hmain _ R (by decide), hmain, ?_⟩
  intro f h
  have hl : isLockPath f = false := by
    cases hcase : isLockPath f with
    | false => rfl
    | true => exact absurd ((isLockPath_iff f).mp hcase) h
  simp [shouldIgnore, hl]

/-- Witness for `C4_lock_override` at concrete inputs. -/
theorem C4_witness :
    shouldIgnore "b/c/package-lock.json" ["!package-lock.json"] = some true ∧
    shouldIgnore "x.txt" [] = some false :=
  ⟨C4_lock_override.2.2.1 "b/c/package-lock.json" ["!package-lock.json"] (by decide),
   C4_lock_override.2.2.2 "x.txt" (by decide)⟩

/-! ## Claim C9 — line filtering -/

theorem filterLines_eq {sp : List String} :
    ∀ {lines out : List String}, filterLines sp lines = some out →
      out = lines.filter (fun l => decide (shouldIgnore l sp = some false))
  | [], out, h => by
    simp only [filterLines, Option.some.injEq] at h
    subst h
    rfl
  | l :: ls, out, h => by
    cases h1 : shouldIgnore l sp with
    | none => simp [filterLines, h1] at h
    | some b =>
      cases b with
      | true =>
        simp only [filterLines, h1] at h
        simp [List.filter_cons, h1, filterLines_eq h]
      | false =>
        simp only [filterLines, h1] at h
        cases h2 : filterLines sp ls with
        | none => rw [h2] at h; simp at h
        | some out' =>
          rw [h2] at h
          simp only [Option.map_some', Option.some.injEq] at h
          subst h
          simp [List.filter_cons, h1, filterLines_eq h2]

theorem filterLines_of_all_kept {sp : List String} :
    ∀ {out : List String}, (∀ l ∈ out, shouldIgnore l sp = some false) →
      filterLines sp out = some out
  | [], _ => rfl
  | l :: ls, h => by
    have h1 : shouldIgnore l sp = some false := h l (by simp)
    have h2 : filterLines sp ls = some ls :=
      filterLines_of_all_kept (fun x hx => h x (by simp [hx]))
    simp [filterLines, h1, h2]

/-- Claim C9, as stated, is false at the empty rule list: filtering is
guarded by `sourceIgnorePatterns.length > 0`, so with no rules the line
`package-lock.json` survives even though `shouldIgnore` ignores it (the
hard-coded lock-file override). -/
theorem C9_counterexample :
    filterContentLines [] ["package-lock.json"] = some ["package-lock.json"] ∧
    shouldIgnore "package-lock.json" [] = some true :=
  ⟨by decide, by decide⟩

/-- Claim C9 (amended): for a non-empty line-rule list, filtering produces
exactly the subsequence of lines not ignored by the matcher, in their
original relative order, and refiltering the result yields it unchanged;
for an empty line-rule list the content is passed through unchanged (also
idempotent), which retains lines the matcher itself would ignore. -/
theorem C9_line_filter :
    (∀ (sourceIgnorePatterns lines out : List String), sourceIgnorePatterns ≠ [] →
      filterContentLines sourceIgnorePatterns lines = some out →
      out = lines.filter
          (fun l => decide (shouldIgnore l sourceIgnorePatterns = some false)) ∧
        filterContentLines sourceIgnorePatterns out = some out) ∧
    (∀ lines, filterContentLines [] lines = some lines) := by
  constructor
  · intro sp lines out hne h
    have hlen : 0 < sp.length := List.length_pos.mpr hne
    rw [filterContentLines, if_pos hlen] at h
    have heq := filterLines_eq h
    refine ⟨heq, ?_⟩
    rw [filterContentLines, if_pos hlen]
    refine filterLines_of_all_kept ?_
    intro l hl
    rw [heq] at hl
    exact of_decide_eq_true (List.mem_filter.mp hl).2
  · intro lines
    rfl

/-- Witness for `C9_line_filter` at a concrete rule list and line sequence. -/
theorem C9_witness :
    filterContentLines ["a"] ["a", "b"] = some ["b"] ∧
    ["b"] = (["a", "b"].filter (fun l => decide (shouldIgnore l ["a"] = some false))) ∧
    filterContentLines ["a"] ["b"] = some ["b"] :=
  ⟨by decide,
   (C9_line_filter.1 ["a"] ["a", "b"] ["b"] (by decide) (by decide)).1,
   (C9_line_filter.1 ["a"] ["a", "b"] ["b"] (by decide) (by decide)).2⟩

/-! ## Claim C8 — basename matching -/

theorem rmatchAlts_nil : ∀ s : List Char, rmatchAlts s [] = false
  | [] => rfl
  | x :: xs => by
    simp only [rmatchAlts, List.flatMap_nil]
    exact rmatchAlts_nil xs

/-- A regex consisting solely of unquantified literals matches exactly the
literal character list. -/
theorem rmatch_lits (cs s : List Char) :
    rmatch (cs.map (fun c => (⟨Quant.once, RAtom.lit c⟩ : RItem))) s = true ↔ s = cs := by
  rw [rmatch]
  induction s generalizing cs with
  | nil =>
    cases cs with
    | nil => simp [rmatchAlts, nullable]
    | cons c cs' => simp [rmatchAlts, nullable]
  | cons x xs ih =>
    cases cs with
    | nil =>
      simp only [List.map_nil, rmatchAlts, List.flatMap_cons, List.flatMap_nil,
        derivSeq, List.append_nil]
      simp [rmatchAlts_nil xs]
    | cons c cs' =>
      simp only [List.map_cons, rmatchAlts, List.flatMap_cons, List.flatMap_nil,
        List.append_nil, derivSeq]
      by_cases hx : x = c
      · rw [if_pos (by simp [atomMatch, hx])]
        simp [ih, hx]
      · rw [if_neg (by simp [atomMatch, hx])]
        simp [rmatchAlts_nil xs, hx]

/-- Equality between the rule and the candidate's basename is a sufficient
matching route in `matchPattern` (the second of the three checks), for any
non-empty pattern. -/
theorem matchPattern_basename (p f : String) (hne : p ≠ "") (heq : p = lastSegment f) :
    matchPattern p f = some true := by
  rw [matchPattern, if_neg hne]
  by_cases hf : p = f
  · rw [if_pos hf]
  · simp only
    rw [if_neg hf, if_pos heq]

/-- Claim C8: a wildcard-free rule matches via exact equality with the
candidate's final path segment at any depth — basename equality always
suffices, and for the wildcard-free rule `"LICENSE"` matching holds exactly
on full-path or basename equality, so `"LICENSE"` and `"docs/LICENSE"` are
ignored while `"LICENSE2"` is not. -/
theorem C8_basename_matching :
    (∀ (pattern filePath : String), pattern ≠ "" → pattern = lastSegment filePath →
      matchPattern pattern filePath = some true) ∧
    (∀ filePath, matchPattern "LICENSE" filePath = some true ↔
      (filePath = "LICENSE" ∨ lastSegment filePath = "LICENSE")) ∧
    shouldIgnore "LICENSE" ["LICENSE"] = some true ∧
    shouldIgnore "docs/LICENSE" ["LICENSE"] = some true ∧
    shouldIgnore "LICENSE2" ["LICENSE"] = some false := by
  have hcomp : compileRegexL (wildcardTranslate "LICENSE").data
      = some ("LICENSE".data.map (fun c => (⟨Quant.once, RAtom.lit c⟩ : RItem))) := by
    rfl
  refine ⟨matchPattern_basename, ?_, by decide, by decide, by decide⟩
  intro f
  constructor
  · intro h
    by_cases h0 : ("LICENSE" : String) = f
    · exact Or.inl h0.symm
    · by_cases h1 : ("LICENSE" : String) = lastSegment f
      · exact Or.inr h1.symm
      · exfalso
        rw [matchPattern, if_neg (by decide : ¬("LICENSE" : String) = "")] at h
        simp only at h
        rw [if_neg h0, if_neg h1, hcomp] at h
        simp only [Option.some.injEq, Bool.or_eq_true] at h
        rcases h with h2 | h2
        · exact h0 (String.ext ((rmatch_lits "LICENSE".data f.data).mp h2)).symm
        · refine h1 ?_
          have := (rmatch_lits "LICENSE".data (lastSegment f).data).mp h2
          exact (String.ext this).symm
  · intro h
    rcases h with h | h
    · subst h
      decide
    · exact matchPattern_basename "LICENSE" f (by decide) h.symm

/-- Witness for `C8_basename_matching` at concrete inputs. -/
theorem C8_witness :
    matchPattern "README" "x/y/README" = some true ∧
    matchPattern "LICENSE" "a/LICENSE" = some true :=
  ⟨C8_basename_matching.1 "README" "x/y/README" (by decide) (by decide),
   (C8_basename_matching.2.1 "a/LICENSE").mpr (Or.inr (by decide))⟩

/-! ## Claim C2 — totality of pattern matching -/

/-- The regex metacharacters that the wildcard translation passes through
verbatim and that can make the `RegExp` constructor fail (or fall outside
the modelled fragment).  The wildcard characters `.`, `*`, `?` are *not* in
this list: they are rewritten by the translation. -/
def regexSpecialChars : List Char :=
  ['[', ']', '(', ')', '{', '}', '|', '\\', '^', '$', '+']

theorem pstep_backslash (pending : Option RAtom) (out : List RItem) :
    pstep (.normal pending, out) '\\' = some (.esc, flushPending pending out) := rfl

theorem pstep_esc_dot (out : List RItem) :
    pstep (.esc, out) '.' = some (.normal (some (.lit '.')), out) := rfl

theorem pstep_dot (pending : Option RAtom) (out : List RItem) :
    pstep (.normal pending, out) '.' = some (.normal (some .dot), flushPending pending out) := rfl

theorem pstep_dot_star (out : List RItem) :
    pstep (.normal (some .dot), out) '*'
      = some (.normal none, ⟨.star, .dot⟩ :: out) := rfl

theorem pstep_safe {c : Char} (h : c ∉ regexSpecialChars)
    (h2 : c ≠ '.') (h3 : c ≠ '*') (h4 : c ≠ '?') (pending : Option RAtom) (out : List RItem) :
    pstep (.normal pending, out) c
      = some (.normal (some (.lit c)), flushPending pending out) := by
  have hb : c ≠ '\\' := fun hc => h (by rw [hc]; decide)
  have hbr : c ≠ '[' := fun hc => h (by rw [hc]; decide)
  have hp : c ≠ '+' := fun hc => h (by rw [hc]; decide)
  have hor : ¬(c = '(' ∨ c = ')' ∨ c = '{' ∨ c = '}' ∨ c = '|' ∨ c = '^' ∨ c = '$') := by
    rintro (rfl | rfl | rfl | rfl | rfl | rfl | rfl) <;> exact h (by decide)
  simp only [pstep]
  rw [if_neg hb, if_neg h2, if_neg hbr, if_neg h3, if_neg hp, if_neg h4, if_neg hor]

/-- Running the parser over the translation of a pattern made of characters
outside `regexSpecialChars` always succeeds and stays in the `normal`
state: every translated chunk (`\.`, `.*`, `.`, or a plain literal) is a
complete atom or a dot followed by its own quantifier, so no error branch
is reachable. -/
theorem foldlM_pstep_translate :
    ∀ (cs : List Char), (∀ c ∈ cs, c ∉ regexSpecialChars) →
      ∀ (pending : Option RAtom) (out : List RItem),
      ∃ pend2 out2,
        List.foldlM pstep (PState.normal pending, out) (cs.flatMap translateChar)
          = some (PState.normal pend2, out2)
  | [], _, pending, out => ⟨pending, out, rfl⟩
  | c :: cs', h, pending, out => by
    have hc := h c (by simp)
    have hcs' : ∀ x ∈ cs', x ∉ regexSpecialChars := fun x hx => h x (by simp [hx])
    rw [List.flatMap_cons]
    by_cases h1 : c = '.'
    · subst h1
      obtain ⟨p2, o2, hrec⟩ :=
        foldlM_pstep_translate cs' hcs' (some (.lit '.')) (flushPending pending out)
      refine ⟨p2, o2, ?_⟩
      rw [show translateChar '.' ++ cs'.flatMap translateChar
          = '\\' :: '.' :: cs'.flatMap translateChar from rfl]
      rw [List.foldlM_cons, pstep_backslash]
      simp only [Option.bind_eq_bind, Option.some_bind]
      rw [List.foldlM_cons, pstep_esc_dot]
      simp only [Option.bind_eq_bind, Option.some_bind]
      exact hrec
    · by_cases h2 : c = '*'
      · subst h2
        obtain ⟨p2, o2, hrec⟩ :=
          foldlM_pstep_translate cs' hcs' none (⟨.star, .dot⟩ :: flushPending pending out)
        refine ⟨p2, o2, ?_⟩
        rw [show translateChar '*' ++ cs'.flatMap translateChar
            = '.' :: '*' :: cs'.flatMap translateChar from rfl]
        rw [List.foldlM_cons, pstep_dot]
        simp only [Option.bind_eq_bind, Option.some_bind]
        rw [List.foldlM_cons, pstep_dot_star]
        simp only [Option.bind_eq_bind, Option.some_bind]
        exact hrec
      · by_cases h3 : c = '?'
        · subst h3
          obtain ⟨p2, o2, hrec⟩ :=
            foldlM_pstep_translate cs' hcs' (some .dot) (flushPending pending out)
          refine ⟨p2, o2, ?_⟩
          rw [show translateChar '?' ++ cs'.flatMap translateChar
              = '.' :: cs'.flatMap translateChar from rfl]
          rw [List.foldlM_cons, pstep_dot]
          simp only [Option.bind_eq_bind, Option.some_bind]
          exact hrec
        · obtain ⟨p2, o2, hrec⟩ :=
            foldlM_pstep_translate cs' hcs' (some (.lit c)) (flushPending pending out)
          refine ⟨p2, o2, ?_⟩
          rw [show translateChar c = [c] by simp [translateChar, h1, h2, h3]]
          rw [List.singleton_append, List.foldlM_cons, pstep_safe hc h1 h2 h3]
          simp only [Option.bind_eq_bind, Option.some_bind]
          exact hrec

/-- Compiling the translation of a pattern without special regex
metacharacters always succeeds. -/
theorem compileRegexL_translate_isSome (p : String)
    (h : ∀ c ∈ p.data, c ∉ regexSpecialChars) :
    (compileRegexL (wildcardTranslate p).data).isSome = true := by
  obtain ⟨p2, o2, hfold⟩ := foldlM_pstep_translate p.data h none []
  rw [compileRegexL]
  rw [show (wildcardTranslate p).data = p.data.flatMap translateChar from rfl]
  rw [hfold]
  rfl

/-- Claim C2, as stated, is false: `matchPattern("[", "x")` reaches the
regex construction (`new RegExp("^[$")`), whose character class is
unterminated, so the `RegExp` constructor throws a `SyntaxError` (modelled
by `none`) instead of returning a boolean. -/
theorem C2_counterexample : matchPattern "[" "x" = none := by decide

/-- Claim C2 (amended): pattern matching is total on the wildcard fragment —
for every pattern containing none of the regex metacharacters
`[ ] ( ) { } | \ ^ $ +` (the wildcard characters `*`, `?`, `.` are fine,
being rewritten by the translation), and every candidate, `matchPattern`
returns a boolean and never throws.  A pattern containing such a
metacharacter can make the `RegExp` constructor throw, e.g. `"["`. -/
theorem C2_matcher_total_on_wildcard_fragment (pattern filePath : String)
    (h : ∀ c ∈ pattern.data, c ∉ regexSpecialChars) :
    (matchPattern pattern filePath).isSome = true := by
  rw [matchPattern]
  by_cases h0 : pattern = ""
  · rw [if_pos h0]; rfl
  · rw [if_neg h0]
    by_cases h1 : pattern = filePath
    · rw [if_pos h1]; rfl
    · simp only
      rw [if_neg h1]
      by_cases h2 : pattern = lastSegment filePath
      · rw [if_pos h2]; rfl
      · rw [if_neg h2]
        have := compileRegexL_translate_isSome pattern h
        cases hc : compileRegexL (wildcardTranslate pattern).data with
        | none => rw [hc] at this; exact absurd this (by simp)
        | some r => rfl

/-- Witness for `C2_matcher_total_on_wildcard_fragment` at a concrete
pattern and candidate. -/
theorem C2_witness : (matchPattern "*.log" "keep.log").isSome = true :=
  C2_matcher_total_on_wildcard_fragment "*.log" "keep.log" (by decide)

/-! ## Structural lemmas about the assembled forest -/

theorem flattenTree_eq_flatMap : ∀ l : List FileTree, flattenTree l = l.flatMap flattenNode
  | [] => rfl
  | n :: rest => by
    show flattenNode n ++ flattenTree rest = _
    rw [List.flatMap_cons, flattenTree_eq_flatMap rest]

theorem flattenNode_dir (p : String) (cs : List FileTree) :
    flattenNode (.dir p cs) = .dir p cs :: flattenTree cs := rfl

theorem flattenNode_file (p : String) : flattenNode (.file p) = [.file p] := rfl

theorem buildNodeF_succ (dk : List String) (files : List TreeItem) (maxDepth : Int)
    (n : Nat) (q : String) :
    buildNodeF dk files maxDepth (n + 1) q
      = .dir q ((dirChildrenKeys dk q).map (buildNodeF dk files maxDepth n)
          ++ (childFiles files maxDepth q).map FileTree.file) := rfl

theorem buildNodeF_path (dk : List String) (files : List TreeItem) (maxDepth : Int) :
    ∀ (fuel : Nat) (q : String), nodePath (buildNodeF dk files maxDepth fuel q) = q
  | 0, _ => rfl
  | _ + 1, _ => rfl

theorem buildNodeF_isDir (dk : List String) (files : List TreeItem) (maxDepth : Int) :
    ∀ (fuel : Nat) (q : String), isDirNode (buildNodeF dk files maxDepth fuel q) = true
  | 0, _ => rfl
  | _ + 1, _ => rfl

theorem mem_dirChildrenKeys {dk : List String} {q q' : String}
    (h : q' ∈ dirChildrenKeys dk q) : q' ∈ dk ∧ parentOf q' = q ∧ q ≠ "" := by
  rw [dirChildrenKeys] at h
  by_cases hq : q = ""
  · rw [if_pos hq] at h
    simp at h
  · rw [if_neg hq] at h
    have := List.mem_filter.mp h
    exact ⟨this.1, by simpa using this.2, hq⟩

theorem mem_childFiles {files : List TreeItem} {maxDepth : Int} {q p : String}
    (h : p ∈ childFiles files maxDepth q) :
    p ∈ (files.filter (fun it => keepDepth maxDepth it.path)).map TreeItem.path
      ∧ parentOf p = q ∧ q ≠ "" := by
  rw [childFiles] at h
  by_cases hq : q = ""
  · rw [if_pos hq] at h
    simp at h
  · rw [if_neg hq] at h
    obtain ⟨it, hit, rfl⟩ := List.mem_map.mp h
    have hmem := List.mem_filter.mp hit
    have hcond := hmem.1
    simp only [Bool.and_eq_true, beq_iff_eq] at hmem
    refine ⟨?_, hmem.2.2, hq⟩
    exact List.mem_map.mpr ⟨it, List.mem_filter.mpr ⟨hcond, hmem.2.1⟩, rfl⟩

theorem mem_rootFilesOf {files : List TreeItem} {maxDepth : Int} {p : String}
    (h : p ∈ rootFilesOf files maxDepth) :
    p ∈ (files.filter (fun it => keepDepth maxDepth it.path)).map TreeItem.path
      ∧ parentOf p = "" := by
  rw [rootFilesOf] at h
  obtain ⟨it, hit, rfl⟩ := List.mem_map.mp h
  have hmem := List.mem_filter.mp hit
  have hcond := hmem.1
  simp only [Bool.and_eq_true, beq_iff_eq] at hmem
  refine ⟨?_, hmem.2.2⟩
  exact List.mem_map.mpr ⟨it, List.mem_filter.mpr ⟨hcond, hmem.2.1⟩, rfl⟩

/-- Every directory node of a materialised subtree is itself a materialised
directory node (at some fuel and key); every other node is a file node. -/
theorem mem_flattenNode_buildNodeF (dk : List String) (files : List TreeItem)
    (maxDepth : Int) :
    ∀ (fuel : Nat) (q : String) (nd : FileTree),
      nd ∈ flattenNode (buildNodeF dk files maxDepth fuel q) →
      isFileNode nd = true ∨ ∃ fuel' q', nd = buildNodeF dk files maxDepth fuel' q'
  | 0, q, nd, h => by
    right
    refine ⟨0, q, ?_⟩
    simpa [buildNodeF, flattenNode_dir, flattenTree] using h
  | n + 1, q, nd, h => by
    rw [buildNodeF_succ, flattenNode_dir] at h
    rcases List.mem_cons.mp h with h1 | h1
    · exact Or.inr ⟨n + 1, q, by rw [h1, buildNodeF_succ]⟩
    · rw [flattenTree_eq_flatMap] at h1
      obtain ⟨x, hx, hnd⟩ := List.mem_flatMap.mp h1
      rcases List.mem_append.mp hx with hx1 | hx1
      · obtain ⟨q', hq', rfl⟩ := List.mem_map.mp hx1
        exact mem_flattenNode_buildNodeF dk files maxDepth n q' nd hnd
      · obtain ⟨p', _, rfl⟩ := List.mem_map.mp hx1
        rw [flattenNode_file] at hnd
        simp only [List.mem_singleton] at hnd
        subst hnd
        exact Or.inl rfl

/-- Decomposition of the children of any materialised directory node:
directory children first, then file children, with the listed key order a
subsequence of the directory index and of the filtered file paths
respectively. -/
theorem buildNodeF_children_decomp (dk : List String) (files : List TreeItem)
    (maxDepth : Int) :
    ∀ (fuel : Nat) (q : String), ∃ ds fs2,
      buildNodeF dk files maxDepth fuel q = .dir q (ds ++ fs2) ∧
      (∀ x ∈ ds, isDirNode x = true) ∧ (∀ x ∈ fs2, isFileNode x = true) ∧
      List.Sublist (ds.map nodePath) dk ∧
      List.Sublist (fs2.map nodePath) (files.map TreeItem.path)
  | 0, q => ⟨[], [], rfl, by simp, by simp, by simp, by simp⟩
  | n + 1, q => by
    refine ⟨(dirChildrenKeys dk q).map (buildNodeF dk files maxDepth n),
      (childFiles files maxDepth q).map FileTree.file, buildNodeF_succ dk files maxDepth n q,
      ?_, ?_, ?_, ?_⟩
    · intro x hx
      obtain ⟨q', _, rfl⟩ := List.mem_map.mp hx
      exact buildNodeF_isDir dk files maxDepth n q'
    · intro x hx
      obtain ⟨p', _, rfl⟩ := List.mem_map.mp hx
      rfl
    · rw [List.map_map]
      have : (nodePath ∘ buildNodeF dk files maxDepth n) = fun q' => q' := by
        funext q'
        exact buildNodeF_path dk files maxDepth n q'
      rw [this, List.map_id']
      rw [dirChildrenKeys]
      by_cases hq : q = ""
      · rw [if_pos hq]
        exact List.nil_sublist dk
      · rw [if_neg hq]
        exact List.filter_sublist dk
    · rw [List.map_map]
      have : (nodePath ∘ FileTree.file) = fun p => p := rfl
      rw [this, List.map_id']
      rw [childFiles]
      by_cases hq : q = ""
      · rw [if_pos hq]
        exact List.nil_sublist _
      · rw [if_neg hq]
        exact (List.filter_sublist files).map TreeItem.path

/-- Every path of a materialised subtree rooted at an indexed key `q` is `q`
itself or a node whose parent is an indexed key; every path is an indexed
key or a depth-surviving filtered file path. -/
theorem mem_pathsOf_buildNodeF (dk : List String) (files : List TreeItem)
    (maxDepth : Int) :
    ∀ (fuel : Nat) (q : String), q ∈ dk → ∀ pp : String,
      pp ∈ (flattenNode (buildNodeF dk files maxDepth fuel q)).map nodePath →
      (pp ∈ dk ∨ pp ∈ (files.filter (fun it => keepDepth maxDepth it.path)).map TreeItem.path)
        ∧ (pp = q ∨ parentOf pp ∈ dk)
  | 0, q, hq, pp, h => by
    have : pp = q := by
      simpa [buildNodeF, flattenNode_dir, flattenTree, nodePath] using h
    subst this
    exact ⟨Or.inl hq, Or.inl rfl⟩
  | n + 1, q, hq, pp, h => by
    rw [buildNodeF_succ, flattenNode_dir] at h
    simp only [List.map_cons, nodePath] at h
    rcases List.mem_cons.mp h with h1 | h1
    · subst h1
      exact ⟨Or.inl hq, Or.inl rfl⟩
    · rw [flattenTree_eq_flatMap] at h1
      obtain ⟨nd, hnd, hpp⟩ := List.mem_map.mp h1
      obtain ⟨x, hx, hnd2⟩ := List.mem_flatMap.mp hnd
      rcases List.mem_append.mp hx with hx1 | hx1
      · obtain ⟨q', hq', rfl⟩ := List.mem_map.mp hx1
        obtain ⟨hq'dk, hq'par, _⟩ := mem_dirChildrenKeys hq'
        have := mem_pathsOf_buildNodeF dk files maxDepth n q' hq'dk pp
          (List.mem_map.mpr ⟨nd, hnd2, hpp⟩)
        refine ⟨this.1, Or.inr ?_⟩
        rcases this.2 with h2 | h2
        · rw [h2, hq'par]
          exact hq
        · exact h2
      · obtain ⟨p', hp', rfl⟩ := List.mem_map.mp hx1
        rw [flattenNode_file] at hnd2
        simp only [List.mem_singleton] at hnd2
        subst hnd2
        rw [nodePath] at hpp
        subst hpp
        obtain ⟨hmem, hpar, _⟩ := mem_childFiles hp'
        exact ⟨Or.inr hmem, Or.inr (by rw [hpar]; exact hq)⟩

/-- Forest-level shape: every node of the assembled forest is a file node
or a materialised directory node. -/
theorem mem_flattenTree_assembleForest {dk : List String} {files : List TreeItem}
    {maxDepth : Int} {nd : FileTree}
    (h : nd ∈ flattenTree (assembleForest dk files maxDepth)) :
    isFileNode nd = true ∨ ∃ fuel' q', nd = buildNodeF dk files maxDepth fuel' q' := by
  rw [assembleForest, flattenTree_eq_flatMap] at h
  obtain ⟨x, hx, hnd⟩ := List.mem_flatMap.mp h
  rcases List.mem_append.mp hx with hx1 | hx1
  · obtain ⟨q', _, rfl⟩ := List.mem_map.mp hx1
    exact mem_flattenNode_buildNodeF dk files maxDepth _ q' nd hnd
  · obtain ⟨p', _, rfl⟩ := List.mem_map.mp hx1
    rw [flattenNode_file] at hnd
    simp only [List.mem_singleton] at hnd
    subst hnd
    exact Or.inl rfl

/-- Forest-level membership: every path of the assembled forest is an
indexed directory key or a depth-surviving filtered file path, and its
parent is empty (a root) or an indexed key. -/
theorem mem_pathsOf_assembleForest {dk : List String} {files : List TreeItem}
    {maxDepth : Int} {pp : String}
    (h : pp ∈ pathsOf (assembleForest dk files maxDepth)) :
    (pp ∈ dk ∨ pp ∈ (files.filter (fun it => keepDepth maxDepth it.path)).map TreeItem.path)
      ∧ (parentOf pp = "" ∨ parentOf pp ∈ dk) := by
  rw [pathsOf, assembleForest, flattenTree_eq_flatMap] at h
  obtain ⟨nd, hnd, hpp⟩ := List.mem_map.mp h
  obtain ⟨x, hx, hnd2⟩ := List.mem_flatMap.mp hnd
  rcases List.mem_append.mp hx with hx1 | hx1
  · obtain ⟨q', hq', rfl⟩ := List.mem_map.mp hx1
    have hq'mem := List.mem_filter.mp hq'
    have hq'root : parentOf q' = "" := by simpa using hq'mem.2
    have := mem_pathsOf_buildNodeF dk files maxDepth _ q' hq'mem.1 pp
      (List.mem_map.mpr ⟨nd, hnd2, hpp⟩)
    refine ⟨this.1, ?_⟩
    rcases this.2 with h2 | h2
    · rw [h2, hq'root]
      exact Or.inl rfl
    · exact Or.inr h2
  · obtain ⟨p', hp', rfl⟩ := List.mem_map.mp hx1
    rw [flattenNode_file] at hnd2
    simp only [List.mem_singleton] at hnd2
    subst hnd2
    rw [nodePath] at hpp
    subst hpp
    obtain ⟨hmem, hroot⟩ := mem_rootFilesOf hp'
    exact ⟨Or.inr hmem, Or.inl hroot⟩

theorem mem_insertKey {l : List String} {x p : String} (h : p ∈ insertKey l x) :
    p ∈ l ∨ p = x := by
  rw [insertKey] at h
  by_cases hx : x ∈ l
  · rw [if_pos hx] at h
    exact Or.inl h
  · rw [if_neg hx] at h
    rcases List.mem_append.mp h with h1 | h1
    · exact Or.inl h1
    · exact Or.inr (List.mem_singleton.mp h1)

theorem mem_dirKeysOf_go {maxDepth : Int} :
    ∀ (dirs : List TreeItem) (acc : List String) (p : String),
      p ∈ dirs.foldl
        (fun acc it => if keepDepth maxDepth it.path then insertKey acc it.path else acc)
        acc →
      p ∈ acc ∨ (keepDepth maxDepth p = true ∧ p ∈ dirs.map TreeItem.path)
  | [], acc, p, h => Or.inl h
  | it :: rest, acc, p, h => by
    rw [List.foldl_cons] at h
    rcases mem_dirKeysOf_go rest _ p h with h1 | h1
    · by_cases hk : keepDepth maxDepth it.path
      · rw [if_pos hk] at h1
        rcases mem_insertKey h1 with h2 | h2
        · exact Or.inl h2
        · subst h2
          exact Or.inr ⟨hk, by simp⟩
      · rw [if_neg hk] at h1
        exact Or.inl h1
    · exact Or.inr ⟨h1.1, by simp [h1.2]⟩

theorem mem_dirKeysOf {dirs : List TreeItem} {maxDepth : Int} {p : String}
    (h : p ∈ dirKeysOf dirs maxDepth) :
    keepDepth maxDepth p = true ∧ p ∈ dirs.map TreeItem.path := by
  rcases mem_dirKeysOf_go dirs [] p h with h1 | h1
  · simp at h1
  · exact h1

theorem dirKeysOf_sublist_go {maxDepth : Int} :
    ∀ (dirs : List TreeItem) (acc proc : List String), List.Sublist acc proc →
      List.Sublist
        (dirs.foldl
          (fun acc it => if keepDepth maxDepth it.path then insertKey acc it.path else acc)
          acc)
        (proc ++ dirs.map TreeItem.path)
  | [], acc, proc, h => by simpa using h
  | it :: rest, acc, proc, h => by
    rw [List.foldl_cons]
    have hstep : List.Sublist
        (if keepDepth maxDepth it.path then insertKey acc it.path else acc)
        (proc ++ [it.path]) := by
      by_cases hk : keepDepth maxDepth it.path
      · rw [if_pos hk, insertKey]
        by_cases hx : it.path ∈ acc
        · rw [if_pos hx]
          exact h.trans (List.sublist_append_left proc [it.path])
        · rw [if_neg hx]
          exact h.append (List.Sublist.refl [it.path])
      · rw [if_neg hk]
        exact h.trans (List.sublist_append_left proc [it.path])
    have := @dirKeysOf_sublist_go maxDepth rest _ (proc ++ [it.path]) hstep
    simpa [List.append_assoc] using this

theorem dirKeysOf_sublist (dirs : List TreeItem) (maxDepth : Int) :
    List.Sublist (dirKeysOf dirs maxDepth) (dirs.map TreeItem.path) := by
  have := @dirKeysOf_sublist_go maxDepth dirs [] [] (List.Sublist.refl [])
  simpa using this

/-- Pulling the pipeline of `buildFileTree` apart: a successful build is the
assembled forest over the filtered directory index and filtered files. -/
theorem buildFileTree_some {items : List TreeItem} {rules : List String}
    {maxDepth : Int} {out : List FileTree}
    (h : buildFileTree items rules maxDepth = some out) :
    ∃ dl fl, dirsFiltered items rules = some dl ∧ blobsFiltered items rules = some fl ∧
      out = assembleForest (dirKeysOf dl maxDepth) fl maxDepth := by
  rw [buildFileTree, dirIndex] at h
  cases hdl : dirsFiltered items rules with
  | none => rw [hdl] at h; simp at h
  | some dl =>
    rw [hdl] at h
    cases hfl : blobsFiltered items rules with
    | none => rw [hfl] at h; simp [Option.map, Option.bind] at h
    | some fl =>
      rw [hfl] at h
      refine ⟨dl, fl, rfl, rfl, ?_⟩
      simpa [Option.map, Option.bind] using h.symm

/-! ## Claim C10 — directories precede files in every children array -/

/-- Claim C10: in every forest returned by the tree builder, within each
children array every directory node precedes every file node, regardless of
how the input entries were interleaved — all directory wiring happens in
the second pass, before any file is attached in the third pass. -/
theorem C10_dirs_before_files (items : List TreeItem) (rules : List String)
    (maxDepth : Int) (out : List FileTree)
    (hbuild : buildFileTree items rules maxDepth = some out) :
    ∀ nd ∈ flattenTree out, ∀ p cs, nd = FileTree.dir p cs →
      ∃ ds fs2, cs = ds ++ fs2 ∧ (∀ x ∈ ds, isDirNode x = true) ∧
        (∀ x ∈ fs2, isFileNode x = true) := by
  obtain ⟨dl, fl, _, _, rfl⟩ := buildFileTree_some hbuild
  intro nd hnd p cs hcs
  rcases mem_flattenTree_assembleForest hnd with hfile | ⟨fuel', q', rfl⟩
  · subst hcs
    simp [isFileNode] at hfile
  · obtain ⟨ds, fs2, heq, hd, hf, _, _⟩ :=
      buildNodeF_children_decomp (dirKeysOf dl maxDepth) fl maxDepth fuel' q'
    rw [heq] at hcs
    injection hcs with h1 h2
    exact ⟨ds, fs2, h2.symm, hd, hf⟩

/-- Witness for `C10_dirs_before_files` on a concrete build. -/
theorem C10_witness :
    ∃ ds fs2, ([FileTree.dir "a/d" [], FileTree.file "a/b.txt"] : List FileTree)
        = ds ++ fs2 ∧ (∀ x ∈ ds, isDirNode x = true) ∧ (∀ x ∈ fs2, isFileNode x = true) :=
  C10_dirs_before_files
    [⟨"a", "tree"⟩, ⟨"a/b.txt", "blob"⟩, ⟨"a/d", "tree"⟩] [] (-1)
    [.dir "a" [.dir "a/d" [], .file "a/b.txt"]] (by rfl)
    (.dir "a" [.dir "a/d" [], .file "a/b.txt"]) (List.Mem.head _)
    "a" [.dir "a/d" [], .file "a/b.txt"] rfl

/-! ## Claim C3 — children ordering -/

/-- Claim C3, as stated, is false: in the input below the file entry
`r/a.txt` precedes its sibling directory entry `r/d`, yet the children of
`r` list the directory first — all directories are wired before any file is
attached, so the interleaved input order is not preserved across kinds. -/
theorem C3_counterexample :
    buildFileTree [⟨"r", "tree"⟩, ⟨"r/a.txt", "blob"⟩, ⟨"r/d", "tree"⟩] [] (-1)
      = some [.dir "r" [.dir "r/d" [], .file "r/a.txt"]] := by rfl

/-- Claim C3 (amended): each children array is produced in two phases —
all directory children first, then all file children — and within each
kind the relative order of the (ignore-filtered) input sequence is
preserved (the directory children paths form a subsequence of the filtered
directory entry paths, the file children paths a subsequence of the
filtered file entry paths); no alphabetical sorting is applied.  A file
entry preceding a sibling directory entry in the input does NOT precede it
in the children array. -/
theorem C3_children_phase_order (items : List TreeItem) (rules : List String)
    (maxDepth : Int) (out : List FileTree) (dl fl : List TreeItem)
    (hbuild : buildFileTree items rules maxDepth = some out)
    (hdl : dirsFiltered items rules = some dl)
    (hfl : blobsFiltered items rules = some fl) :
    ∀ nd ∈ flattenTree out, ∀ p cs, nd = FileTree.dir p cs →
      ∃ ds fs2, cs = ds ++ fs2 ∧
        (∀ x ∈ ds, isDirNode x = true) ∧ (∀ x ∈ fs2, isFileNode x = true) ∧
        List.Sublist (ds.map nodePath) (dl.map TreeItem.path) ∧
        List.Sublist (fs2.map nodePath) (fl.map TreeItem.path) := by
  obtain ⟨dl', fl', hdl', hfl', rfl⟩ := buildFileTree_some hbuild
  rw [hdl'] at hdl
  rw [hfl'] at hfl
  injection hdl with hdl
  injection hfl with hfl
  subst hdl
  subst hfl
  intro nd hnd p cs hcs
  rcases mem_flattenTree_assembleForest hnd with hfile | ⟨fuel', q', rfl⟩
  · subst hcs
    simp [isFileNode] at hfile
  · obtain ⟨ds, fs2, heq, hd, hf, hsub1, hsub2⟩ :=
      buildNodeF_children_decomp (dirKeysOf dl' maxDepth) fl' maxDepth fuel' q'
    rw [heq] at hcs
    injection hcs with h1 h2
    refine ⟨ds, fs2, h2.symm, hd, hf, ?_, hsub2⟩
    exact hsub1.trans (dirKeysOf_sublist dl' maxDepth)

/-- Witness for `C3_children_phase_order` on a concrete build. -/
theorem C3_witness :
    ∃ ds fs2, ([FileTree.dir "r/d" [], FileTree.file "r/a.txt"] : List FileTree)
        = ds ++ fs2 ∧
      (∀ x ∈ ds, isDirNode x = true) ∧ (∀ x ∈ fs2, isFileNode x = true) ∧
      List.Sublist (ds.map nodePath) (["r", "r/d"] : List String) ∧
      List.Sublist (fs2.map nodePath) (["r/a.txt"] : List String) :=
  C3_children_phase_order
    [⟨"r", "tree"⟩, ⟨"r/a.txt", "blob"⟩, ⟨"r/d", "tree"⟩] [] (-1)
    [.dir "r" [.dir "r/d" [], .file "r/a.txt"]]
    [⟨"r", "tree"⟩, ⟨"r/d", "tree"⟩] [⟨"r/a.txt", "blob"⟩]
    (by rfl) (by rfl) (by rfl)
    (.dir "r" [.dir "r/d" [], .file "r/a.txt"]) (List.Mem.head _)
    "r" [.dir "r/d" [], .file "r/a.txt"] rfl

/-! ## Claim C5 — orphan dropping -/

/-- Claim C5: a node whose computed parent path is non-empty and absent
from the directory index is silently dropped from the forest (never
attached anywhere, no error); in particular a single file entry `a/b.txt`
with no entry for `a` yields an empty forest. -/
theorem C5_orphan_dropping :
    (∀ (items : List TreeItem) (rules : List String) (maxDepth : Int)
        (out : List FileTree) (dk : List String) (p : String),
      buildFileTree items rules maxDepth = some out →
      dirIndex items rules maxDepth = some dk →
      parentOf p ≠ "" → parentOf p ∉ dk → p ∉ pathsOf out) ∧
    buildFileTree [⟨"a/b.txt", "blob"⟩] [] (-1) = some [] := by
  refine ⟨?_, by rfl⟩
  intro items rules maxDepth out dk p hbuild hdk hpar hmem hp
  obtain ⟨dl, fl, hdl, hfl, rfl⟩ := buildFileTree_some hbuild
  rw [dirIndex, hdl] at hdk
  simp only [Option.map_some', Option.some.injEq] at hdk
  subst hdk
  rcases (mem_pathsOf_assembleForest hp).2 with h1 | h1
  · exact hpar h1
  · exact hmem h1

/-- Witness for `C5_orphan_dropping` at a concrete build where the parent
directory of `a/b.txt` was never materialised. -/
theorem C5_witness :
    "a/b.txt" ∉ pathsOf [FileTree.dir "x" []] :=
  C5_orphan_dropping.1 [⟨"x", "tree"⟩, ⟨"a/b.txt", "blob"⟩] [] (-1)
    [.dir "x" []] ["x"] "a/b.txt" (by rfl) (by rfl) (by decide) (by decide)

/-! ## Claim C6 — depth guard -/

/-- Claim C6: depth is the count of `/`-separated segments of the full
path; an entry is excluded by the depth guard exactly when
`maxDepth ≠ -1` and its depth exceeds `maxDepth`, and the guard applies
identically to directory and file entries (any path failing it never
appears in the forest); for the three-entry example with `maxDepth = 1`
only the root directory `a` survives, with no children. -/
theorem C6_depth_guard :
    jsDepth "a/b/c.txt" = 3 ∧
    (∀ (maxDepth : Int) (p : String), keepDepth maxDepth p = false ↔
      (maxDepth ≠ -1 ∧ maxDepth < (jsDepth p : Int))) ∧
    (∀ (items : List TreeItem) (rules : List String) (maxDepth : Int)
        (out : List FileTree) (p : String),
      buildFileTree items rules maxDepth = some out →
      keepDepth maxDepth p = false → p ∉ pathsOf out) ∧
    buildFileTree [⟨"a", "tree"⟩, ⟨"a/b", "tree"⟩, ⟨"a/b/c.txt", "blob"⟩] [] 1
      = some [.dir "a" []] := by
  refine ⟨by decide, ?_, ?_, by rfl⟩
  · intro m p
    rw [keepDepth]
    simp only [Bool.or_eq_false_iff, beq_eq_false_iff_ne, ne_eq,
      decide_eq_false_iff_not, not_le]
  · intro items rules maxDepth out p hbuild hkeep hp
    obtain ⟨dl, fl, hdl, hfl, rfl⟩ := buildFileTree_some hbuild
    rcases (mem_pathsOf_assembleForest hp).1 with h1 | h1
    · rw [(mem_dirKeysOf h1).1] at hkeep
      simp at hkeep
    · obtain ⟨it, hit, rfl⟩ := List.mem_map.mp h1
      have := (List.mem_filter.mp hit).2
      rw [this] at hkeep
      exact absurd hkeep (by simp)

/-- Witness for `C6_depth_guard` at a concrete build with `maxDepth = 1`. -/
theorem C6_witness :
    (1 : Int) ≠ -1 ∧ (1 : Int) < (jsDepth "a/b" : Int) ∧
    "a/b" ∉ pathsOf [FileTree.dir "a" []] := by
  refine ⟨?_, ?_, ?_⟩
  · exact ((C6_depth_guard.2.1 1 "a/b").mp (by decide)).1
  · exact ((C6_depth_guard.2.1 1 "a/b").mp (by decide)).2
  · exact C6_depth_guard.2.2.1 [⟨"a", "tree"⟩, ⟨"a/b", "tree"⟩, ⟨"a/b/c.txt", "blob"⟩]
      [] 1 [.dir "a" []] "a/b" (by rfl) (by decide)

/-! ## Claim C7 — per-file fetch failures are non-fatal and localized -/

theorem shouldIgnore_nil (p : String) : shouldIgnore p [] = some (isLockPath p) := by
  by_cases h : isLockPath p <;> simp [shouldIgnore, h]

/-- A successful fetch of a non-ignored file yields the heading plus fenced
code block (no line rules). -/
theorem generateFileContentMarkdown_ok (fetch : String → Except Unit String)
    (p c : String) (hsi : shouldIgnore p [] = some false) (hf : fetch p = .ok c) :
    generateFileContentMarkdown fetch p [] []
      = "### " ++ p ++ "\n\n```" ++ languageForFileType (getFileType p)
          ++ "\n" ++ c ++ "\n```\n\n" := by
  unfold generateFileContentMarkdown
  rw [hsi, hf]
  rfl

/-- A failed fetch of a non-ignored file yields the fixed placeholder
section. -/
theorem generateFileContentMarkdown_err (fetch : String → Except Unit String)
    (p : String) (hsi : shouldIgnore p [] = some false) (hf : fetch p = .error ()) :
    generateFileContentMarkdown fetch p [] [] = failureSection p := by
  unfold generateFileContentMarkdown
  rw [hsi, hf]

theorem sectionsLoop_isSome (fetch : String → Except Unit String)
    (sourceIgnorePatterns : List String) :
    ∀ l : List FileTree,
      (sectionsLoop fetch [] sourceIgnorePatterns l).isSome = true
  | [] => rfl
  | .dir p cs :: rest => sectionsLoop_isSome fetch sourceIgnorePatterns rest
  | .file p :: rest => by
    simp only [sectionsLoop, shouldIgnore_nil]
    cases hl : isLockPath p
    · obtain ⟨s, hs⟩ := Option.isSome_iff_exists.mp
        (sectionsLoop_isSome fetch sourceIgnorePatterns rest)
      rw [hs]
      rfl
    · exact sectionsLoop_isSome fetch sourceIgnorePatterns rest

/-- Claim C7: a content-fetch failure is non-fatal and localized — the
failing file still contributes a section with its heading and the fixed
placeholder, assembly continues with subsequent files in pre-order, and no
error propagates; and the assembler is total for every forest, fetch
collaborator and line-rule list (no path rules). -/
theorem C7_fetch_failure_non_fatal :
    (∀ (fetch : String → Except Unit String) (ca cc : String),
      fetch "a.ts" = .ok ca → fetch "b.md" = .error () → fetch "c.py" = .ok cc →
      generateFileSections [.file "a.ts", .file "b.md", .file "c.py"] fetch [] []
        = some ("## ファイル内容\n\n"
            ++ ("### a.ts\n\n```typescript\n" ++ ca ++ "\n```\n\n")
            ++ "### b.md\n\n> ファイル内容の取得に失敗しました。\n\n"
            ++ ("### c.py\n\n```python\n" ++ cc ++ "\n```\n\n"))) ∧
    (∀ (forest : List FileTree) (fetch : String → Except Unit String)
        (sourceIgnorePatterns : List String),
      (generateFileSections forest fetch [] sourceIgnorePatterns).isSome = true) := by
  constructor
  · intro fetch ca cc h1 h2 h3
    have hs1 : shouldIgnore "a.ts" [] = some false := by decide
    have hs2 : shouldIgnore "b.md" [] = some false := by decide
    have hs3 : shouldIgnore "c.py" [] = some false := by decide
    rw [generateFileSections]
    rw [show (flattenTree [.file "a.ts", .file "b.md", .file "c.py"]).filter isFileNode
        = [.file "a.ts", .file "b.md", .file "c.py"] from rfl]
    simp only [sectionsLoop, hs1, hs2, hs3]
    rw [generateFileContentMarkdown_ok fetch "a.ts" ca hs1 h1]
    rw [generateFileContentMarkdown_err fetch "b.md" hs2 h2]
    rw [generateFileContentMarkdown_ok fetch "c.py" cc hs3 h3]
    simp only [Option.map_some', Option.some.injEq]
    simp only [String.append_assoc, String.append_empty, failureSection]
    rfl
  · intro forest fetch sp
    rw [generateFileSections]
    obtain ⟨s, hs⟩ := Option.isSome_iff_exists.mp
      (sectionsLoop_isSome fetch sp ((flattenTree forest).filter isFileNode))
    rw [hs]
    rfl

/-- Witness for `C7_fetch_failure_non_fatal` at a concrete fetch
collaborator failing exactly on the middle file. -/
theorem C7_witness :
    generateFileSections [.file "a.ts", .file "b.md", .file "c.py"]
      (fun p => if p == "b.md" then .error () else if p == "a.ts" then .ok "let x = 1"
        else .ok "print(1)") [] []
      = some ("## ファイル内容\n\n"
          ++ ("### a.ts\n\n```typescript\n" ++ "let x = 1" ++ "\n```\n\n")
          ++ "### b.md\n\n> ファイル内容の取得に失敗しました。\n\n"
          ++ ("### c.py\n\n```python\n" ++ "print(1)" ++ "\n```\n\n")) :=
  C7_fetch_failure_non_fatal.1
    (fun p => if p == "b.md" then .error () else if p == "a.ts" then .ok "let x = 1"
      else .ok "print(1)") "let x = 1" "print(1)" (by rfl) (by rfl) (by rfl)
